import Mathlib

/-!
Shallow embedding of the `sha0` Rust crate (`src/lib.rs`): the `Sha0`
incremental hasher with its `new`, `update`, `finalize`, `pad` and
`process_block` operations.  Machine integers `u32`/`u64` are modelled as
`Nat` reduced modulo `2^32` / `2^64` at every operation where the Rust code
wraps; byte values (`u8`) are reduced modulo `256` where they are consumed.
-/

namespace Sha0Repo

/-- `u32::rotate_left`: rotate the low 32 bits of `x` left by `n` (0 < n < 32). -/
def rotl32 (x n : Nat) : Nat :=
  ((x <<< n) ||| (x >>> (32 - n))) % 2 ^ 32

/-- `u32::from_be_bytes`: assemble four bytes, big-endian, into a 32-bit word. -/
def word_of_bytes (b0 b1 b2 b3 : Nat) : Nat :=
  (b0 % 256) * 2 ^ 24 + (b1 % 256) * 2 ^ 16 + (b2 % 256) * 2 ^ 8 + (b3 % 256)

/-- The `i`-th big-endian 32-bit word of a 64-byte block
(`block.chunks(4).enumerate().take(16)` in the source). -/
def wordAt (block : List Nat) (i : Nat) : Nat :=
  word_of_bytes (block.getD (4 * i) 0) (block.getD (4 * i + 1) 0)
    (block.getD (4 * i + 2) 0) (block.getD (4 * i + 3) 0)

/-- The message-schedule array `w` of the source, built index by index:
`w[t]` for `t < 16` comes from the block bytes, and for `t ≥ 16` the source
sets `w[t] = w[t-3] ^ w[t-8] ^ w[t-14] ^ w[t-16]` (no rotation).
`schedList block n` is the list of the first `n` entries. -/
def schedList (block : List Nat) : Nat → List Nat
  | 0 => []
  | t + 1 =>
    let prev := schedList block t
    prev ++ [if t < 16 then wordAt block t
      else (prev.getD (t - 3) 0) ^^^ (prev.getD (t - 8) 0) ^^^
        (prev.getD (t - 14) 0) ^^^ (prev.getD (t - 16) 0)]

/-- The five working variables `a,b,c,d,e` of `process_block`. -/
structure Regs where
  a : Nat
  b : Nat
  c : Nat
  d : Nat
  e : Nat
deriving Repr, DecidableEq

/-- The per-round pair `(f, k)` selected by the `match t` in the source's
main loop. -/
def fK (t b c d : Nat) : Nat × Nat :=
  if t ≤ 19 then ((b &&& c) ||| ((b ^^^ 0xffffffff) &&& d), 0x5a827999)
  else if t ≤ 39 then (b ^^^ c ^^^ d, 0x6ed9eba1)
  else if t ≤ 59 then ((b &&& c) ||| (b &&& d) ||| (c &&& d), 0x8f1bbcdc)
  else (b ^^^ c ^^^ d, 0xca62c1d6)

/-- One iteration of the source's main loop at index `t`:
`temp = a.rotate_left(5) + f + e + k + w[t]` (wrapping), then the register
shift `e=d; d=c; c=b.rotate_left(30); b=a; a=temp`. -/
def round (w : Nat → Nat) (t : Nat) (r : Regs) : Regs :=
  let fk := fK t r.b r.c r.d
  ⟨(rotl32 r.a 5 + fk.1 + r.e + fk.2 + w t) % 2 ^ 32,
    r.a, rotl32 r.b 30, r.c, r.d⟩

/-- `rounds w n r` runs the main loop for `t in 0..n` starting from `r`. -/
def rounds (w : Nat → Nat) : Nat → Regs → Regs
  | 0, r => r
  | t + 1, r => round w t (rounds w t r)

/-- The initial working variables of `process_block`: `a..e` loaded from
the five state words. -/
def initRegs (h : List Nat) : Regs :=
  ⟨h.getD 0 0, h.getD 1 0, h.getD 2 0, h.getD 3 0, h.getD 4 0⟩

/-- The body of `Sha0::process_block` after its length assertion: message
schedule, 80 main-loop rounds, then the wrapping feed-forward
`h[i] = h[i].wrapping_add(reg_i)`. -/
def compress (h : List Nat) (block : List Nat) : List Nat :=
  let w := schedList block 80
  let r := rounds (fun t => w.getD t 0) 80 (initRegs h)
  [(h.getD 0 0 + r.a) % 2 ^ 32, (h.getD 1 0 + r.b) % 2 ^ 32,
    (h.getD 2 0 + r.c) % 2 ^ 32, (h.getD 3 0 + r.d) % 2 ^ 32,
    (h.getD 4 0 + r.e) % 2 ^ 32]

/-- The working variables at the end of the 80-round main loop, starting
from the state words (the `let r := ...` inside `compress`, named for use
in theorem statements). -/
def loopRegs (h block : List Nat) : Regs :=
  rounds (fun t => (schedList block 80).getD t 0) 80 (initRegs h)

/-- `Sha0::process_block` with its `assert_eq!(block.len(), 64)`: the
assertion failure (a Rust panic) is modelled as `none`. -/
def process_block (h : List Nat) (block : List Nat) : Option (List Nat) :=
  if block.length = 64 then some (compress h block) else none

/-- The hasher state: five `u32` state words `h`, the pending byte buffer
`data`, and the `u64` bit-length counter `length`. -/
structure Sha0 where
  h : List Nat
  data : List Nat
  length : Nat
deriving Repr, DecidableEq

/-- `Sha0::new`. -/
def Sha0.new : Sha0 :=
  ⟨[0x67452301, 0xefcdab89, 0x98badcfe, 0x10325476, 0xc3d2e1f0], [], 0⟩

/-- Fuelled form of the `while self.data.len() >= 64` loop shared verbatim
by `update` and `finalize`: take the first 64 buffered bytes, compress
them, and drain them from the buffer.  Structural recursion on a fuel
argument keeps the definition kernel-computable; `drain_unfold` below
proves the fuel choice exact, i.e. that `drain` satisfies the while-loop
recurrence. -/
def drainFuel : Nat → Sha0 → Sha0
  | 0, s => s
  | f + 1, s =>
    if 64 ≤ s.data.length then
      drainFuel f ⟨compress s.h (s.data.take 64), s.data.drop 64, s.length⟩
    else s

/-- The `while self.data.len() >= 64` drain loop: each iteration removes
64 bytes, so `s.data.length` iterations are always enough fuel. -/
def drain (s : Sha0) : Sha0 :=
  drainFuel s.data.length s

/-- `Sha0::update`: add `8 * input.len()` to the bit counter (wrapping at
`2^64` as `u64` addition does), append the input bytes, then drain full
blocks. -/
def Sha0.update (s : Sha0) (input : List Nat) : Sha0 :=
  drain ⟨s.h, s.data ++ input, (s.length + input.length * 8) % 2 ^ 64⟩

/-- Fuelled form of the `while (self.data.len() % 64) != 56` zero-padding
loop of `Sha0::pad`. -/
def padZerosFuel : Nat → List Nat → List Nat
  | 0, d => d
  | f + 1, d => if d.length % 64 = 56 then d else padZerosFuel f (d ++ [0])

/-- The zero-padding loop: `(120 - d.length % 64) % 64` is exactly the
number of zero bytes the loop pushes (`padZeros_unfold` below proves the
while-loop recurrence holds). -/
def padZeros (d : List Nat) : List Nat :=
  padZerosFuel ((120 - d.length % 64) % 64) d

/-- `u64::to_be_bytes`. -/
def beBytes8 (n : Nat) : List Nat :=
  [(n >>> 56) % 256, (n >>> 48) % 256, (n >>> 40) % 256, (n >>> 32) % 256,
    (n >>> 24) % 256, (n >>> 16) % 256, (n >>> 8) % 256, n % 256]

/-- `Sha0::pad`: push `0x80`, zero-pad until the length is 56 mod 64, then
append the bit-length counter big-endian. -/
def Sha0.pad (s : Sha0) : Sha0 :=
  ⟨s.h, padZeros (s.data ++ [0x80]) ++ beBytes8 s.length, s.length⟩

/-- One lowercase hexadecimal digit, as produced by Rust's `{:08x}`. -/
def hexDigit (n : Nat) : Char :=
  if n < 10 then Char.ofNat (48 + n) else Char.ofNat (87 + n)

/-- `format!("{:08x}", w)` for `w < 2^32`: eight lowercase hex digits,
most significant first. -/
def toHex8 (w : Nat) : String :=
  String.mk ((List.range 8).map (fun i => hexDigit ((w >>> (4 * (7 - i))) % 16)))

/-- `Sha0::finalize`: pad, drain the resulting full blocks, then render the
five state words as a 40-character lowercase hex string. -/
def Sha0.finalize (s : Sha0) : String :=
  String.join ((drain s.pad).h.map toHex8)

/-- Fuelled decomposition of a byte list into its successive complete
64-byte blocks (specification-side helper used to state what the drain
loop computes). -/
def chunks64Fuel : Nat → List Nat → List (List Nat)
  | 0, _ => []
  | f + 1, d => if 64 ≤ d.length then d.take 64 :: chunks64Fuel f (d.drop 64) else []

/-- The successive complete 64-byte blocks at the front of a byte list. -/
def chunks64 (d : List Nat) : List (List Nat) :=
  chunks64Fuel d.length d

/-- A character is a lowercase hexadecimal digit (`0`–`9` or `a`–`f`). -/
def isLowerHexDigit (c : Char) : Bool :=
  (48 ≤ c.toNat && c.toNat ≤ 57) || (97 ≤ c.toNat && c.toNat ≤ 102)

/-! ### The fuelled loops satisfy the source's while-loop recurrences -/

theorem drainFuel_stop (f : Nat) (s : Sha0) (h : ¬ 64 ≤ s.data.length) :
    drainFuel f s = s := by
  cases f <;> simp [drainFuel, h]

theorem drainFuel_eq_drain :
    ∀ (f : Nat) (s : Sha0), s.data.length ≤ f → drainFuel f s = drain s := by
  intro f
  induction f using Nat.strong_induction_on with
  | _ f ih =>
    intro s hle
    by_cases h64 : 64 ≤ s.data.length
    · obtain ⟨g, rfl⟩ : ∃ g, f = g + 1 := ⟨f - 1, by omega⟩
      have hstep : drainFuel (g + 1) s =
          drainFuel g ⟨compress s.h (s.data.take 64), s.data.drop 64, s.length⟩ := by
        simp only [drainFuel, if_pos h64]
      have hlen : (⟨compress s.h (s.data.take 64), s.data.drop 64, s.length⟩ : Sha0).data.length
          = s.data.length - 64 := by
        simp
      have h1 : drainFuel g ⟨compress s.h (s.data.take 64), s.data.drop 64, s.length⟩ =
          drain ⟨compress s.h (s.data.take 64), s.data.drop 64, s.length⟩ :=
        ih g (by omega) _ (by rw [hlen]; omega)
      have hd : drain s = drainFuel s.data.length s := rfl
      obtain ⟨m, hm⟩ : ∃ m, s.data.length = m + 1 := ⟨s.data.length - 1, by omega⟩
      have hstep2 : drainFuel (m + 1) s =
          drainFuel m ⟨compress s.h (s.data.take 64), s.data.drop 64, s.length⟩ := by
        simp only [drainFuel, if_pos h64]
      have h2 : drainFuel m ⟨compress s.h (s.data.take 64), s.data.drop 64, s.length⟩ =
          drain ⟨compress s.h (s.data.take 64), s.data.drop 64, s.length⟩ :=
        ih m (by omega) _ (by rw [hlen]; omega)
      rw [hstep, h1, hd, hm, hstep2, h2]
    · rw [drainFuel_stop f s h64]
      have : drain s = drainFuel s.data.length s := rfl
      rw [this, drainFuel_stop _ s h64]

/-- `drain` satisfies the recurrence of the source's
`while self.data.len() >= 64` loop: while at least 64 bytes are buffered it
compresses exactly the first 64 of them and drops them, otherwise it stops. -/
theorem drain_unfold (s : Sha0) :
    drain s = if 64 ≤ s.data.length then
      drain ⟨compress s.h (s.data.take 64), s.data.drop 64, s.length⟩
    else s := by
  by_cases h64 : 64 ≤ s.data.length
  · rw [if_pos h64]
    have hd : drain s = drainFuel s.data.length s := rfl
    obtain ⟨m, hm⟩ : ∃ m, s.data.length = m + 1 := ⟨s.data.length - 1, by omega⟩
    have hstep : drainFuel (m + 1) s =
        drainFuel m ⟨compress s.h (s.data.take 64), s.data.drop 64, s.length⟩ := by
      simp only [drainFuel, if_pos h64]
    rw [hd, hm, hstep]
    exact drainFuel_eq_drain m _ (by simp; omega)
  · rw [if_neg h64]
    have : drain s = drainFuel s.data.length s := rfl
    rw [this, drainFuel_stop _ s h64]

/-- `padZeros` satisfies the recurrence of the source's
`while (self.data.len() % 64) != 56` loop: push a zero byte until the
buffer length is 56 mod 64. -/
theorem padZeros_unfold (d : List Nat) :
    padZeros d = if d.length % 64 = 56 then d else padZeros (d ++ [0]) := by
  by_cases h : d.length % 64 = 56
  · have hz : (120 - d.length % 64) % 64 = 0 := by omega
    simp [padZeros, hz, padZerosFuel, h]
  · have hz : (120 - d.length % 64) % 64 = (120 - (d.length + 1) % 64) % 64 + 1 := by
      omega
    rw [if_neg h]
    show padZerosFuel ((120 - d.length % 64) % 64) d = _
    rw [hz]
    show (if d.length % 64 = 56 then d
        else padZerosFuel ((120 - (d.length + 1) % 64) % 64) (d ++ [0])) = _
    rw [if_neg h]
    simp [padZeros]

/-! ### Structural invariants of the drain loop -/

theorem drainFuel_length_field : ∀ (f : Nat) (s : Sha0), (drainFuel f s).length = s.length := by
  intro f
  induction f with
  | zero => intro s; rfl
  | succ g ih =>
    intro s
    by_cases h : 64 ≤ s.data.length
    · simp only [drainFuel, if_pos h]; exact ih _
    · simp only [drainFuel, if_neg h]

theorem drain_length_field (s : Sha0) : (drain s).length = s.length :=
  drainFuel_length_field _ _

theorem drainFuel_data_lt : ∀ (f : Nat) (s : Sha0),
    s.data.length ≤ f → (drainFuel f s).data.length < 64 := by
  intro f
  induction f with
  | zero => intro s h; simp only [drainFuel]; omega
  | succ g ih =>
    intro s h
    by_cases h64 : 64 ≤ s.data.length
    · simp only [drainFuel, if_pos h64]
      exact ih _ (by simp only [List.length_drop]; omega)
    · simp only [drainFuel, if_neg h64]; omega

theorem drain_data_lt (s : Sha0) : (drain s).data.length < 64 :=
  drainFuel_data_lt _ _ le_rfl

theorem compress_length (h block : List Nat) : (compress h block).length = 5 := rfl

theorem drainFuel_h_length : ∀ (f : Nat) (s : Sha0),
    s.h.length = 5 → (drainFuel f s).h.length = 5 := by
  intro f
  induction f with
  | zero => intro s h5; exact h5
  | succ g ih =>
    intro s h5
    by_cases h : 64 ≤ s.data.length
    · simp only [drainFuel, if_pos h]; exact ih _ (compress_length _ _)
    · simp only [drainFuel, if_neg h]; exact h5

theorem drain_h_length (s : Sha0) (h5 : s.h.length = 5) : (drain s).h.length = 5 :=
  drainFuel_h_length _ _ h5

theorem chunks64Fuel_eq :
    ∀ (f : Nat) (d : List Nat), d.length ≤ f → chunks64Fuel f d = chunks64 d := by
  intro f
  induction f using Nat.strong_induction_on with
  | _ f ih =>
    intro d hle
    by_cases h64 : 64 ≤ d.length
    · obtain ⟨g, rfl⟩ : ∃ g, f = g + 1 := ⟨f - 1, by omega⟩
      have hstep : chunks64Fuel (g + 1) d = d.take 64 :: chunks64Fuel g (d.drop 64) := by
        simp only [chunks64Fuel, if_pos h64]
      have h1 : chunks64Fuel g (d.drop 64) = chunks64 (d.drop 64) :=
        ih g (by omega) _ (by simp only [List.length_drop]; omega)
      obtain ⟨m, hm⟩ : ∃ m, d.length = m + 1 := ⟨d.length - 1, by omega⟩
      have hstep2 : chunks64Fuel (m + 1) d = d.take 64 :: chunks64Fuel m (d.drop 64) := by
        simp only [chunks64Fuel, if_pos h64]
      have h2 : chunks64Fuel m (d.drop 64) = chunks64 (d.drop 64) :=
        ih m (by omega) _ (by simp only [List.length_drop]; omega)
      show _ = chunks64Fuel d.length d
      rw [hstep, h1, hm, hstep2, h2]
    · have hf : ∀ (f' : Nat), chunks64Fuel f' d = [] := by
        intro f'; cases f' <;> simp [chunks64Fuel, h64]
      show _ = chunks64Fuel d.length d
      rw [hf, hf]

theorem chunks64_unfold (d : List Nat) :
    chunks64 d = if 64 ≤ d.length then d.take 64 :: chunks64 (d.drop 64) else [] := by
  by_cases h64 : 64 ≤ d.length
  · rw [if_pos h64]
    obtain ⟨m, hm⟩ : ∃ m, d.length = m + 1 := ⟨d.length - 1, by omega⟩
    show chunks64Fuel d.length d = _
    rw [hm]
    show (if 64 ≤ d.length then d.take 64 :: chunks64Fuel m (d.drop 64) else []) = _
    rw [if_pos h64, chunks64Fuel_eq m _ (by simp only [List.length_drop]; omega)]
  · rw [if_neg h64]
    show chunks64Fuel d.length d = []
    cases hd : d.length <;> simp [chunks64Fuel, h64]

/-- What the drain loop computes, in closed form: it folds the compression
function over the successive complete 64-byte blocks of the buffer, in
buffer order, and leaves the remainder (the bytes past the last complete
block) in the buffer. -/
theorem drain_foldl : ∀ (n : Nat) (d : List Nat), d.length = n → ∀ (h : List Nat) (l : Nat),
    drain ⟨h, d, l⟩ =
      ⟨List.foldl compress h (chunks64 d), d.drop (64 * (d.length / 64)), l⟩ := by
  intro n
  induction n using Nat.strong_induction_on with
  | _ n ih =>
    intro d hn h l
    by_cases h64 : 64 ≤ d.length
    · rw [drain_unfold]
      simp only [if_pos h64]
      rw [chunks64_unfold d, if_pos h64]
      rw [ih (d.length - 64) (by omega) (d.drop 64) (by simp only [List.length_drop]) _ l]
      simp only [List.foldl_cons, List.drop_drop, List.length_drop]
      have : 64 + 64 * ((d.length - 64) / 64) = 64 * (d.length / 64) := by omega
      rw [this]
    · rw [drain_unfold]
      simp only [if_neg h64]
      rw [chunks64_unfold, if_neg h64]
      have : d.length / 64 = 0 := by omega
      simp [this]

/-- Draining, appending more bytes and draining again is the same as
draining the concatenation: the buffered remainder of the first drain is
simply continued.  (The `h` and `length` fields of the intermediate state
are whatever the first drain produced; the final `length` field is
overridden by `l'` in both runs.) -/
theorem drain_append : ∀ (n : Nat) (d : List Nat), d.length = n →
    ∀ (h : List Nat) (l l' : Nat) (B : List Nat),
    drain ⟨(drain ⟨h, d, l⟩).h, (drain ⟨h, d, l⟩).data ++ B, l'⟩ = drain ⟨h, d ++ B, l'⟩ := by
  intro n
  induction n using Nat.strong_induction_on with
  | _ n ih =>
    intro d hn h l l' B
    by_cases h64 : 64 ≤ d.length
    · have hinner : drain ⟨h, d, l⟩ =
          drain ⟨compress h (d.take 64), d.drop 64, l⟩ := by
        rw [drain_unfold]; simp only [if_pos h64]
      rw [hinner]
      rw [ih (d.length - 64) (by omega) (d.drop 64) (by simp only [List.length_drop])]
      have houter : drain ⟨h, d ++ B, l'⟩ =
          drain ⟨compress h ((d ++ B).take 64), (d ++ B).drop 64, l'⟩ := by
        rw [drain_unfold]
        simp only [List.length_append, if_pos (by omega : 64 ≤ d.length + B.length)]
      rw [houter, List.take_append_of_le_length h64, List.drop_append_of_le_length h64]
    · have hinner : drain ⟨h, d, l⟩ = ⟨h, d, l⟩ := by
        rw [drain_unfold]; simp only [if_neg h64]
      rw [hinner]

/-! ### Closed form of the padding -/

theorem padZerosFuel_replicate :
    ∀ (z : Nat) (d : List Nat), z = (120 - d.length % 64) % 64 →
    padZerosFuel z d = d ++ List.replicate z 0 := by
  intro z
  induction z with
  | zero => intro d _; simp [padZerosFuel]
  | succ z ih =>
    intro d hz
    have h56 : ¬ d.length % 64 = 56 := by omega
    show (if d.length % 64 = 56 then d else padZerosFuel z (d ++ [0])) = _
    rw [if_neg h56, ih (d ++ [0]) (by simp; omega)]
    simp [List.replicate_succ, List.append_assoc]

theorem padZeros_replicate (d : List Nat) :
    padZeros d = d ++ List.replicate ((120 - d.length % 64) % 64) 0 :=
  padZerosFuel_replicate _ d rfl

theorem pad_data (s : Sha0) :
    s.pad.data = s.data ++ [0x80] ++
      List.replicate ((119 - s.data.length % 64) % 64) 0 ++ beBytes8 s.length := by
  show padZeros (s.data ++ [0x80]) ++ beBytes8 s.length = _
  rw [padZeros_replicate]
  have : (120 - (s.data ++ [0x80]).length % 64) % 64 = (119 - s.data.length % 64) % 64 := by
    simp only [List.length_append, List.length_cons, List.length_nil]
    omega
  rw [this, List.append_assoc, List.append_assoc]

theorem beBytes8_length (n : Nat) : (beBytes8 n).length = 8 := rfl

theorem pad_data_length (s : Sha0) :
    s.pad.data.length = s.data.length + 9 + (119 - s.data.length % 64) % 64 := by
  rw [pad_data]
  simp [List.length_append, List.length_replicate, beBytes8_length]
  omega

/-! ### The message schedule -/

theorem schedList_length (block : List Nat) : ∀ (n : Nat), (schedList block n).length = n := by
  intro n
  induction n with
  | zero => rfl
  | succ t ih => simp [schedList, ih]

theorem schedList_getD_mono (block : List Nat) (m : Nat) :
    ∀ (n t : Nat), t < m → m ≤ n →
    (schedList block n).getD t 0 = (schedList block m).getD t 0 := by
  intro n
  induction n with
  | zero => intro t ht hm; omega
  | succ k ih =>
    intro t ht hm
    rcases Nat.lt_or_ge m (k + 1) with hlt | hge
    · have hstep : (schedList block (k + 1)).getD t 0 = (schedList block k).getD t 0 := by
        show ((schedList block k) ++ [_]).getD t 0 = _
        exact List.getD_append _ _ _ _ (by rw [schedList_length]; omega)
      rw [hstep, ih t ht (by omega)]
    · have : m = k + 1 := by omega
      rw [this]

theorem schedList_getD_succ (block : List Nat) (t : Nat) :
    (schedList block (t + 1)).getD t 0 =
      if t < 16 then wordAt block t
      else (schedList block t).getD (t - 3) 0 ^^^ (schedList block t).getD (t - 8) 0 ^^^
        (schedList block t).getD (t - 14) 0 ^^^ (schedList block t).getD (t - 16) 0 := by
  show ((schedList block t) ++ [_]).getD t 0 = _
  rw [List.getD_append_right _ _ _ _ (by rw [schedList_length])]
  rw [schedList_length]
  simp

theorem drain_small (s : Sha0) (h : s.data.length < 64) : drain s = s := by
  rw [drain_unfold, if_neg (by omega)]

theorem drain_eq_foldl (s : Sha0) :
    drain s = ⟨List.foldl compress s.h (chunks64 s.data),
      s.data.drop (64 * (s.data.length / 64)), s.length⟩ := by
  obtain ⟨h, d, l⟩ := s
  exact drain_foldl d.length d rfl h l

/-! ### Claims -/

set_option maxRecDepth 100000 in
/-- Claim C1: the full pipeline `new() → update → finalize` produces
exactly the reference digests on the three known-answer inputs: the empty
byte string, `"abc"`, and `"The quick brown fox jumps over the lazy dog"`
(given here by their byte values). -/
theorem claim_c1_known_answer_vectors :
    (Sha0.new.update []).finalize = "f96cea198ad1dd5617ac084a3d92c6107708c0ef" ∧
    (Sha0.new.update [97, 98, 99]).finalize = "0164b8a914cd2a5e74c4f7ff082c4d97f1edf880" ∧
    (Sha0.new.update [84, 104, 101, 32, 113, 117, 105, 99, 107, 32, 98, 114, 111, 119, 110,
      32, 102, 111, 120, 32, 106, 117, 109, 112, 115, 32, 111, 118, 101, 114, 32, 116, 104,
      101, 32, 108, 97, 122, 121, 32, 100, 111, 103]).finalize =
      "b03b401ba92d77666221e843feebf8c561cea5f7" := by
  refine ⟨by decide, by decide, by decide⟩

/-- Claim C2: incremental equivalence.  Updating with `A` then `B` and
finalizing gives the same digest as updating once with `A ++ B` — in fact
`update` is a monoid homomorphism from byte sequences under concatenation
into state transformations, from any reachable or unreachable state, for
every split point including mid-block and empty chunks. -/
theorem claim_c2_incremental_equivalence :
    (∀ (s : Sha0) (A B : List Nat), (s.update A).update B = s.update (A ++ B)) ∧
    (∀ (A B : List Nat),
      ((Sha0.new.update A).update B).finalize = (Sha0.new.update (A ++ B)).finalize) := by
  have hgen : ∀ (s : Sha0) (A B : List Nat), (s.update A).update B = s.update (A ++ B) := by
    intro s A B
    unfold Sha0.update
    rw [drain_append (s.data ++ A).length _ rfl, drain_length_field]
    congr 1
    simp only [Sha0.mk.injEq, List.append_assoc, List.length_append, true_and]
    omega
  exact ⟨hgen, fun A B => by rw [hgen]⟩

/-- Claim C7: the pending-buffer invariant.  `new()` starts with an empty
buffer; after every `update` the buffer holds fewer than 64 bytes; each
drain step removes exactly the first 64 bytes of the buffer after
compressing them; and `update` only appends the supplied bytes (and bumps
the bit counter) before draining. -/
theorem claim_c7_pending_buffer_invariant :
    Sha0.new.data = [] ∧
    (∀ (s : Sha0) (input : List Nat), (s.update input).data.length < 64) ∧
    (∀ (s : Sha0), 64 ≤ s.data.length →
      drain s = drain ⟨compress s.h (s.data.take 64), s.data.drop 64, s.length⟩) ∧
    (∀ (s : Sha0) (input : List Nat),
      s.update input = drain ⟨s.h, s.data ++ input, (s.length + input.length * 8) % 2 ^ 64⟩) := by
  refine ⟨rfl, ?_, ?_, fun s input => rfl⟩
  · intro s input
    exact drain_data_lt _
  · intro s h64
    rw [drain_unfold s, if_pos h64]

/-- Witness for C7, at a state whose buffer holds exactly 64 bytes. -/
theorem claim_c7_witness :
    64 ≤ (Sha0.mk [1, 2, 3, 4, 5] (List.replicate 64 0) 0).data.length ∧
    drain (Sha0.mk [1, 2, 3, 4, 5] (List.replicate 64 0) 0) =
      drain ⟨compress (Sha0.mk [1, 2, 3, 4, 5] (List.replicate 64 0) 0).h
          ((Sha0.mk [1, 2, 3, 4, 5] (List.replicate 64 0) 0).data.take 64),
        (Sha0.mk [1, 2, 3, 4, 5] (List.replicate 64 0) 0).data.drop 64,
        (Sha0.mk [1, 2, 3, 4, 5] (List.replicate 64 0) 0).length⟩ :=
  ⟨by decide, claim_c7_pending_buffer_invariant.2.2.1 _ (by decide)⟩

/-- Claim C9: `process_block` fails its assertion exactly when the block is
not 64 bytes long, and the blocks actually passed by the drain loop of
`update` and `finalize` (the first 64 bytes of a buffer holding at least
64) always are 64 bytes long, so the assertion never fires in correct
usage. -/
theorem claim_c9_process_block_assertion :
    (∀ (h block : List Nat), block.length ≠ 64 → process_block h block = none) ∧
    (∀ (h block : List Nat), block.length = 64 →
      process_block h block = some (compress h block)) ∧
    (∀ (s : Sha0), 64 ≤ s.data.length →
      process_block s.h (s.data.take 64) = some (compress s.h (s.data.take 64))) := by
  refine ⟨?_, ?_, ?_⟩
  · intro h block hne
    simp [process_block, hne]
  · intro h block he
    simp [process_block, he]
  · intro s h64
    have hlen : (s.data.take 64).length = 64 := by
      rw [List.length_take]
      omega
    simp [process_block, hlen]

/-- Witness for C9: a 63-byte block trips the assertion, and a state with
a 64-byte buffer passes a valid block. -/
theorem claim_c9_witness :
    (List.replicate 63 0).length ≠ 64 ∧
    process_block [] (List.replicate 63 0) = none ∧
    64 ≤ (Sha0.mk [] (List.replicate 64 7) 0).data.length ∧
    process_block (Sha0.mk [] (List.replicate 64 7) 0).h
        ((Sha0.mk [] (List.replicate 64 7) 0).data.take 64) =
      some (compress (Sha0.mk [] (List.replicate 64 7) 0).h
        ((Sha0.mk [] (List.replicate 64 7) 0).data.take 64)) :=
  ⟨by decide, claim_c9_process_block_assertion.1 [] _ (by decide), by decide,
    claim_c9_process_block_assertion.2.2 _ (by decide)⟩

/-- Claim C10: the frame property of `update`.  The digest state after an
update is the fold of the compression function over exactly the complete
64-byte blocks of (pending buffer ++ input); in particular when fewer than
64 bytes are available in total, `update` leaves `h` unchanged and only
appends to the buffer and bumps the bit counter. -/
theorem claim_c10_update_frame :
    (∀ (s : Sha0) (input : List Nat),
      (s.update input).h = List.foldl compress s.h (chunks64 (s.data ++ input))) ∧
    (∀ (s : Sha0) (input : List Nat), s.data.length + input.length < 64 →
      (s.update input).h = s.h ∧ (s.update input).data = s.data ++ input ∧
      (s.update input).length = (s.length + input.length * 8) % 2 ^ 64) := by
  constructor
  · intro s input
    show (drain ⟨s.h, s.data ++ input, (s.length + input.length * 8) % 2 ^ 64⟩).h = _
    rw [drain_eq_foldl]
  · intro s input hlt
    have hs : s.update input =
        ⟨s.h, s.data ++ input, (s.length + input.length * 8) % 2 ^ 64⟩ := by
      show drain _ = _
      apply drain_small
      simp only [List.length_append]
      omega
    exact ⟨by rw [hs], by rw [hs], by rw [hs]⟩

/-- Witness for C10: a one-byte update of a fresh hasher stays entirely in
the pending buffer. -/
theorem claim_c10_witness :
    Sha0.new.data.length + [255].length < 64 ∧
    (Sha0.new.update [255]).h = Sha0.new.h ∧
    (Sha0.new.update [255]).data = Sha0.new.data ++ [255] ∧
    (Sha0.new.update [255]).length = (Sha0.new.length + [255].length * 8) % 2 ^ 64 :=
  ⟨by decide, claim_c10_update_frame.2 Sha0.new [255] (by decide)⟩

/-- Claim C3: the message schedule interprets the 64-byte block as 16
big-endian 32-bit words, and every word `w[t]` for `t` in `[16,80)` is the
plain XOR `w[t-3] ^^^ w[t-8] ^^^ w[t-14] ^^^ w[t-16]`, with no left
rotation applied to the XOR result (the SHA-0 schedule; `compress` reads
exactly this array `schedList block 80`). -/
theorem claim_c3_message_schedule :
    (∀ (block : List Nat) (t : Nat), t < 16 →
      (schedList block 80).getD t 0 =
        (block.getD (4 * t) 0 % 256) * 2 ^ 24 + (block.getD (4 * t + 1) 0 % 256) * 2 ^ 16 +
        (block.getD (4 * t + 2) 0 % 256) * 2 ^ 8 + (block.getD (4 * t + 3) 0 % 256)) ∧
    (∀ (block : List Nat) (t : Nat), 16 ≤ t → t < 80 →
      (schedList block 80).getD t 0 =
        (schedList block 80).getD (t - 3) 0 ^^^ (schedList block 80).getD (t - 8) 0 ^^^
        (schedList block 80).getD (t - 14) 0 ^^^ (schedList block 80).getD (t - 16) 0) := by
  constructor
  · intro block t ht
    rw [schedList_getD_mono block (t + 1) 80 t (by omega) (by omega),
      schedList_getD_succ, if_pos ht]
    rfl
  · intro block t h16 h80
    rw [schedList_getD_mono block (t + 1) 80 t (by omega) (by omega),
      schedList_getD_succ, if_neg (by omega)]
    rw [schedList_getD_mono block t 80 (t - 3) (by omega) (by omega),
      schedList_getD_mono block t 80 (t - 8) (by omega) (by omega),
      schedList_getD_mono block t 80 (t - 14) (by omega) (by omega),
      schedList_getD_mono block t 80 (t - 16) (by omega) (by omega)]

/-- Witness for C3, on the block of bytes `0,1,…,63`: word 0 is assembled
big-endian, and word 16 is the unrotated XOR of words 13, 8, 2 and 0. -/
theorem claim_c3_witness :
    (0 : Nat) < 16 ∧ 16 ≤ 16 ∧ 16 < 80 ∧
    (schedList (List.range 64) 80).getD 0 0 =
      ((List.range 64).getD (4 * 0) 0 % 256) * 2 ^ 24 +
      ((List.range 64).getD (4 * 0 + 1) 0 % 256) * 2 ^ 16 +
      ((List.range 64).getD (4 * 0 + 2) 0 % 256) * 2 ^ 8 +
      ((List.range 64).getD (4 * 0 + 3) 0 % 256) ∧
    (schedList (List.range 64) 80).getD 16 0 =
      (schedList (List.range 64) 80).getD (16 - 3) 0 ^^^
      (schedList (List.range 64) 80).getD (16 - 8) 0 ^^^
      (schedList (List.range 64) 80).getD (16 - 14) 0 ^^^
      (schedList (List.range 64) 80).getD (16 - 16) 0 :=
  ⟨by decide, by decide, by decide,
    claim_c3_message_schedule.1 (List.range 64) 0 (by decide),
    claim_c3_message_schedule.2 (List.range 64) 16 (by decide) (by decide)⟩

/-- Claim C4: the compression loop.  The working variables are initialised
from state words 0..4, the loop body at index `t` computes
`temp = rotl32(a,5) + f(b,c,d) + e + K + w[t]` mod `2^32` with `f` and `K`
chosen by the round ranges 0–19, 20–39, 40–59, 60–79 exactly as the spec's
table says, then shifts `e=d; d=c; c=rotl32(b,30); b=a; a=temp`; and
`compress` runs exactly 80 such rounds before the feed-forward. -/
theorem claim_c4_compression_loop :
    (∀ (w : Nat → Nat) (r : Regs) (t : Nat), t ≤ 19 →
      round w t r = ⟨(rotl32 r.a 5 + ((r.b &&& r.c) ||| ((r.b ^^^ 0xffffffff) &&& r.d)) +
        r.e + 0x5a827999 + w t) % 2 ^ 32, r.a, rotl32 r.b 30, r.c, r.d⟩) ∧
    (∀ (w : Nat → Nat) (r : Regs) (t : Nat), 20 ≤ t → t ≤ 39 →
      round w t r = ⟨(rotl32 r.a 5 + (r.b ^^^ r.c ^^^ r.d) +
        r.e + 0x6ed9eba1 + w t) % 2 ^ 32, r.a, rotl32 r.b 30, r.c, r.d⟩) ∧
    (∀ (w : Nat → Nat) (r : Regs) (t : Nat), 40 ≤ t → t ≤ 59 →
      round w t r = ⟨(rotl32 r.a 5 + ((r.b &&& r.c) ||| (r.b &&& r.d) ||| (r.c &&& r.d)) +
        r.e + 0x8f1bbcdc + w t) % 2 ^ 32, r.a, rotl32 r.b 30, r.c, r.d⟩) ∧
    (∀ (w : Nat → Nat) (r : Regs) (t : Nat), 60 ≤ t → t ≤ 79 →
      round w t r = ⟨(rotl32 r.a 5 + (r.b ^^^ r.c ^^^ r.d) +
        r.e + 0xca62c1d6 + w t) % 2 ^ 32, r.a, rotl32 r.b 30, r.c, r.d⟩) ∧
    (∀ (h : List Nat), initRegs h = ⟨h.getD 0 0, h.getD 1 0, h.getD 2 0, h.getD 3 0,
      h.getD 4 0⟩) ∧
    (∀ (w : Nat → Nat) (r : Regs) (n : Nat), rounds w (n + 1) r = round w n (rounds w n r)) ∧
    (∀ (h block : List Nat), compress h block =
      [(h.getD 0 0 + (loopRegs h block).a) % 2 ^ 32,
       (h.getD 1 0 + (loopRegs h block).b) % 2 ^ 32,
       (h.getD 2 0 + (loopRegs h block).c) % 2 ^ 32,
       (h.getD 3 0 + (loopRegs h block).d) % 2 ^ 32,
       (h.getD 4 0 + (loopRegs h block).e) % 2 ^ 32]) := by
  refine ⟨?_, ?_, ?_, ?_, fun h => rfl, fun w r n => rfl, fun h block => rfl⟩
  · intro w r t h1
    simp only [round, fK]
    rw [if_pos h1]
  · intro w r t h1 h2
    simp only [round, fK]
    rw [if_neg (by omega : ¬ t ≤ 19), if_pos h2]
  · intro w r t h1 h2
    simp only [round, fK]
    rw [if_neg (by omega : ¬ t ≤ 19), if_neg (by omega : ¬ t ≤ 39), if_pos h2]
  · intro w r t h1 h2
    simp only [round, fK]
    rw [if_neg (by omega : ¬ t ≤ 19), if_neg (by omega : ¬ t ≤ 39),
      if_neg (by omega : ¬ t ≤ 59)]

/-- Witness for C4: one round from each of the four ranges, on concrete
registers. -/
theorem claim_c4_witness :
    (0 : Nat) ≤ 19 ∧ (20 : Nat) ≤ 20 ∧ (20 : Nat) ≤ 39 ∧
    (40 : Nat) ≤ 40 ∧ (40 : Nat) ≤ 59 ∧ (60 : Nat) ≤ 60 ∧ (60 : Nat) ≤ 79 ∧
    round (fun _ => 11) 0 ⟨1, 2, 3, 4, 5⟩ =
      ⟨(rotl32 1 5 + ((2 &&& 3) ||| ((2 ^^^ 0xffffffff) &&& 4)) + 5 + 0x5a827999 + 11) % 2 ^ 32,
        1, rotl32 2 30, 3, 4⟩ ∧
    round (fun _ => 11) 20 ⟨1, 2, 3, 4, 5⟩ =
      ⟨(rotl32 1 5 + (2 ^^^ 3 ^^^ 4) + 5 + 0x6ed9eba1 + 11) % 2 ^ 32,
        1, rotl32 2 30, 3, 4⟩ ∧
    round (fun _ => 11) 40 ⟨1, 2, 3, 4, 5⟩ =
      ⟨(rotl32 1 5 + ((2 &&& 3) ||| (2 &&& 4) ||| (3 &&& 4)) + 5 + 0x8f1bbcdc + 11) % 2 ^ 32,
        1, rotl32 2 30, 3, 4⟩ ∧
    round (fun _ => 11) 60 ⟨1, 2, 3, 4, 5⟩ =
      ⟨(rotl32 1 5 + (2 ^^^ 3 ^^^ 4) + 5 + 0xca62c1d6 + 11) % 2 ^ 32,
        1, rotl32 2 30, 3, 4⟩ :=
  ⟨by decide, by decide, by decide, by decide, by decide, by decide, by decide,
    claim_c4_compression_loop.1 (fun _ => 11) ⟨1, 2, 3, 4, 5⟩ 0 (by decide),
    claim_c4_compression_loop.2.1 (fun _ => 11) ⟨1, 2, 3, 4, 5⟩ 20 (by decide) (by decide),
    claim_c4_compression_loop.2.2.1 (fun _ => 11) ⟨1, 2, 3, 4, 5⟩ 40 (by decide) (by decide),
    claim_c4_compression_loop.2.2.2.1 (fun _ => 11) ⟨1, 2, 3, 4, 5⟩ 60 (by decide) (by decide)⟩

/-- Claim C5: the feed-forward.  The state returned by `compress` has
exactly 5 words, and word `i` is the mod-`2^32` sum of the pre-block state
word `i` and the `i`-th final working variable (`a,b,c,d,e` in positional
order), the state words being those from before the 80-round loop. -/
theorem claim_c5_feed_forward :
    (∀ (h block : List Nat), (compress h block).length = 5) ∧
    (∀ (h block : List Nat) (i : Nat), i < 5 →
      (compress h block).getD i 0 =
        (h.getD i 0 + [(loopRegs h block).a, (loopRegs h block).b, (loopRegs h block).c,
          (loopRegs h block).d, (loopRegs h block).e].getD i 0) % 2 ^ 32) := by
  refine ⟨fun h block => rfl, ?_⟩
  intro h block i hi
  interval_cases i <;> rfl

/-- Witness for C5, at word 0 of a concrete state and block. -/
theorem claim_c5_witness :
    (0 : Nat) < 5 ∧
    (compress [1, 2, 3, 4, 5] (List.range 64)).getD 0 0 =
      (([1, 2, 3, 4, 5] : List Nat).getD 0 0 +
        [(loopRegs [1, 2, 3, 4, 5] (List.range 64)).a,
         (loopRegs [1, 2, 3, 4, 5] (List.range 64)).b,
         (loopRegs [1, 2, 3, 4, 5] (List.range 64)).c,
         (loopRegs [1, 2, 3, 4, 5] (List.range 64)).d,
         (loopRegs [1, 2, 3, 4, 5] (List.range 64)).e].getD 0 0) % 2 ^ 32 :=
  ⟨by decide, claim_c5_feed_forward.2 [1, 2, 3, 4, 5] (List.range 64) 0 (by decide)⟩

/-- Claim C6: padding.  `pad` appends one `0x80` byte, then zero bytes
until the length is 56 mod 64 (the modulo-64 loop, which spills into a
second block when needed — the replicate count `(119 - len % 64) % 64`
covers both branches), then the bit counter as 8 big-endian bytes; the
padded buffer length is a multiple of 64; and `finalize` drains every
resulting 64-byte block through the compressor sequentially in buffer
order, leaving an empty buffer. -/
theorem claim_c6_padding :
    (∀ (s : Sha0), s.pad.data = s.data ++ [0x80] ++
      List.replicate ((119 - s.data.length % 64) % 64) 0 ++ beBytes8 s.length) ∧
    (∀ (s : Sha0), s.pad.data.length % 64 = 0) ∧
    (∀ (s : Sha0), drain s.pad =
      ⟨List.foldl compress s.pad.h (chunks64 s.pad.data), [], s.pad.length⟩) ∧
    (∀ (s : Sha0), s.finalize = String.join ((drain s.pad).h.map toHex8)) := by
  have hc : ∀ (s : Sha0), s.pad.data.length % 64 = 0 := by
    intro s
    rw [pad_data_length]
    omega
  refine ⟨pad_data, hc, ?_, fun s => rfl⟩
  intro s
  rw [drain_eq_foldl]
  have hfull : 64 * (s.pad.data.length / 64) = s.pad.data.length := by
    have := hc s
    omega
  rw [hfull, List.drop_length]

/-! ### Digest rendering -/

theorem string_foldl_append_data :
    ∀ (l : List String) (s : String),
    (List.foldl (fun r t => r ++ t) s l).data = s.data ++ (l.map String.data).flatten := by
  intro l
  induction l with
  | nil => intro s; simp
  | cons a l ih =>
    intro s
    rw [List.foldl_cons, ih (s ++ a)]
    simp [String.data_append, List.flatten_cons, List.append_assoc]

theorem string_join_data (l : List String) :
    (String.join l).data = (l.map String.data).flatten := by
  show (List.foldl (fun r t => r ++ t) "" l).data = _
  rw [string_foldl_append_data]
  rfl

theorem toHex8_data (w : Nat) :
    (toHex8 w).data = (List.range 8).map (fun i => hexDigit ((w >>> (4 * (7 - i))) % 16)) :=
  rfl

theorem flatten_toHex8_length (l : List Nat) :
    ((l.map toHex8).map String.data).flatten.length = 8 * l.length := by
  induction l with
  | nil => rfl
  | cons a t ih =>
    simp only [List.map_cons, List.flatten_cons, List.length_append, ih, toHex8_data,
      List.length_map, List.length_range, List.length_cons]
    omega

theorem hexDigit_isLowerHex : ∀ (m : Nat), m < 16 → isLowerHexDigit (hexDigit m) = true := by
  decide

theorem update_h_length (s : Sha0) (h5 : s.h.length = 5) (input : List Nat) :
    (s.update input).h.length = 5 :=
  drain_h_length _ h5

/-- Claim C8: digest shape.  For every input the digest string is exactly
40 characters, each a lowercase hexadecimal digit, and it is the
concatenation in state order of the 5 final state words each rendered as 8
hex digits, most significant first. -/
theorem claim_c8_digest_shape (input : List Nat) :
    ((Sha0.new.update input).finalize).length = 40 ∧
    (∀ c ∈ ((Sha0.new.update input).finalize).data, isLowerHexDigit c = true) ∧
    (Sha0.new.update input).finalize =
      String.join ((drain (Sha0.new.update input).pad).h.map toHex8) ∧
    (drain (Sha0.new.update input).pad).h.length = 5 := by
  have h5 : (drain (Sha0.new.update input).pad).h.length = 5 := by
    apply drain_h_length
    show (Sha0.new.update input).h.length = 5
    exact update_h_length Sha0.new rfl input
  refine ⟨?_, ?_, rfl, h5⟩
  · show (String.join ((drain (Sha0.new.update input).pad).h.map toHex8)).data.length = 40
    rw [string_join_data, flatten_toHex8_length, h5]
  · intro c hc
    have hc' : c ∈ (String.join ((drain (Sha0.new.update input).pad).h.map toHex8)).data := hc
    rw [string_join_data] at hc'
    rcases List.mem_flatten.1 hc' with ⟨lc, hlc, hcl⟩
    rcases List.mem_map.1 hlc with ⟨str, hs, rfl⟩
    rcases List.mem_map.1 hs with ⟨w, _, rfl⟩
    rw [toHex8_data] at hcl
    rcases List.mem_map.1 hcl with ⟨i, _, rfl⟩
    exact hexDigit_isLowerHex _ (Nat.mod_lt _ (by norm_num))

set_option maxRecDepth 100000 in
/-- Witness for C8: a concrete character of the digest of the empty input
is a lowercase hex digit. -/
theorem claim_c8_witness :
    'f' ∈ ((Sha0.new.update []).finalize).data ∧ isLowerHexDigit 'f' = true :=
  ⟨by decide, (claim_c8_digest_shape []).2.1 'f' (by decide)⟩

end Sha0Repo
